import Mathlib

/-!
Shallow embedding of the `lexarcana` dice-statistics program.

The embedding follows the Python sources:
- `definitions.py`: the configuration constants (`DICE`, `DIFFICULTY_TARGETS`, `MAX_LEN`);
- `patterns.py`: the pattern generator (`_build_patterns`, `build_patterns`, `deduplicate`);
- `rolls.py`: the `Roll` conversion utilities (`array_to_spec`, `spec_to_array`,
  `spec_to_name`, `name_to_spec`) and the `RollStats` probability engine
  (`calculate_rolls`, `eval`, `success_probability`, `average`);
- `tables.py` / `probs.py`: the table builders (`stats_table`, `roll_spec_stats`).

Python values are modelled as follows: tuples/lists of die faces become `List ℕ`
(all faces are non-negative in the program), `Counter`/`dict` objects become
association lists `List (ℕ × ℕ)` that keep Python's insertion order (Python 3.7+
dicts preserve insertion order, and `Counter` is a dict), strings become
`List Char`, probabilities become `ℚ`, and code that can raise an exception
returns an `Option`.
-/

/-! ## Configuration (`definitions.py`) -/

/-- Allowed die types, in decreasing order (`definitions.DICE`). -/
def DICE : List ℕ := [20, 12, 10, 8, 6, 5, 4, 3]

/-- Maximum number of dice in a roll (`definitions.MAX_LEN`). -/
def MAX_LEN : ℕ := 3

/-- Difficulty Targets 3, 4, ..., 21 (`definitions.DIFFICULTY_TARGETS`). -/
def DIFFICULTY_TARGETS : List ℕ := List.range' 3 19

/-! ## Pattern generator (`patterns.py`) -/

/-- `patterns._build_patterns`: recursively generate the roll patterns over the
face list `values` (expected in decreasing order), for Dice Point value `target`,
at most `maxLen` dice, and allowed shortfall `maxGap`.  The Python generator
yields tuples; here the stream of yields is the returned list, in yield order.
The Python base-case guard `max_len == 0 or not values` is split over the two
list constructors. -/
def build_patterns_rec : List ℕ → ℕ → ℕ → ℕ → List (List ℕ)
  | [], target, _, maxGap =>
      if target ≤ maxGap then [[]] else []
  | head :: tail, target, maxLen, maxGap =>
      if maxLen = 0 then
        (if target ≤ maxGap then [[]] else [])
      else
        (List.range (min maxLen (target / head) + 1)).flatMap fun reps =>
          (build_patterns_rec tail (target - head * reps) (maxLen - reps) maxGap).map
            fun tailPattern => List.replicate reps head ++ tailPattern

/-- `patterns.deduplicate`, with the `seen` set made explicit as a list. -/
def deduplicate_rec : List (List ℕ) → List (List ℕ) → List (List ℕ)
  | [], _ => []
  | p :: rest, seen =>
      if p ∈ seen then deduplicate_rec rest seen
      else p :: deduplicate_rec rest (p :: seen)

/-- `patterns.deduplicate`: eliminate duplicates from a stream of patterns,
keeping the first occurrence of each. -/
def deduplicate (patterns : List (List ℕ)) : List (List ℕ) :=
  deduplicate_rec patterns []

/-- The largest configured die face that fits within `target`
(`max(valid_values)` in `patterns.build_patterns`); `0` on the empty list. -/
def largest_valid_face (target : ℕ) : ℕ :=
  ((DICE.filter fun v => v ≤ target).foldr max 0)

/-- `patterns.build_patterns`: generate all roll patterns for the given Dice
Point value.  Python's `max(valid_values)` raises `ValueError` when no die fits
within `target`; that exception is modelled by returning `none`. -/
def build_patterns (target : ℕ) : Option (List (List ℕ)) :=
  let valid_values := DICE.filter fun v => v ≤ target
  if valid_values = [] then none
  else
    let max_gap := target - largest_valid_face target
    some (deduplicate (build_patterns_rec valid_values target MAX_LEN max_gap))

example : build_patterns 3 = some [[3]] := by decide
example : (build_patterns 10).isSome = true := by decide
example : build_patterns 2 = none := by decide

/-! ## Roll representation (`rolls.py`, class `Roll`)

A Python `Counter` (that is, a dict) is modelled as an association list
`List (ℕ × ℕ)` of `(die, count)` pairs in insertion order; a Python string is
modelled as a `List Char`. -/

/-- One step of `collections.Counter`'s counting: add one occurrence of `x`
to the counter.  An existing key keeps its position and its count is bumped;
a new key is appended at the end (Python dict insertion order). -/
def addToSpec (spec : List (ℕ × ℕ)) (x : ℕ) : List (ℕ × ℕ) :=
  if spec.any fun p => p.1 = x then
    spec.map fun p => if p.1 = x then (p.1, p.2 + 1) else p
  else spec ++ [(x, 1)]

/-- `Roll.array_to_spec`: `Counter(array)`, counting the elements of `array`
in first-encounter order. -/
def array_to_spec (array : List ℕ) : List (ℕ × ℕ) :=
  array.foldl addToSpec []

/-- `Roll.spec_to_array`: concatenate `reps` copies of each `die_type`, in the
counter's key order. -/
def spec_to_array (spec : List (ℕ × ℕ)) : List ℕ :=
  spec.flatMap fun p => List.replicate p.2 p.1

/-- The decimal digit characters used by Python's `str`/`int` conversions. -/
def digitChar : ℕ → Char
  | 0 => '0' | 1 => '1' | 2 => '2' | 3 => '3' | 4 => '4'
  | 5 => '5' | 6 => '6' | 7 => '7' | 8 => '8' | _ => '9'

/-- Inverse of `digitChar`: the value of a decimal digit character, through the
character code (codes 48-57 are the digits). -/
def digitVal (c : Char) : Option ℕ :=
  if 48 ≤ c.toNat ∧ c.toNat ≤ 57 then some (c.toNat - 48) else none

/-- Decimal digits of `n`, most significant first, with enough fuel;
structurally recursive so that concrete names evaluate. -/
def natReprAux : ℕ → ℕ → List Char
  | 0, _ => []
  | fuel + 1, n => if n = 0 then [] else natReprAux fuel (n / 10) ++ [digitChar (n % 10)]

/-- Python `str(n)` for a natural number: its decimal digits, most significant
first. -/
def natRepr (n : ℕ) : List Char :=
  if n = 0 then ['0'] else natReprAux n n

/-- Python `int(s)` restricted to plain decimal numerals: `none` on the empty
string or any non-digit character (Python raises `ValueError` there). -/
def parseNat (s : List Char) : Option ℕ :=
  if s = [] then none
  else s.foldlM (fun acc c => (digitVal c).map fun d => 10 * acc + d) 0

/-- Python `str.split(sep)` for a one-character separator. -/
def splitOnChar (sep : Char) : List Char → List (List Char)
  | [] => [[]]
  | c :: rest =>
      match splitOnChar sep rest with
      | [] => [[]]
      | cur :: others =>
          if c = sep then [] :: cur :: others else (c :: cur) :: others

/-- `Roll.spec_to_name`: join the terms `f'{count}d{die}'` with `'+'`, in the
counter's key (insertion) order. -/
def spec_to_name (spec : List (ℕ × ℕ)) : List Char :=
  List.intercalate ['+']
    (spec.map fun p => natRepr p.2 ++ 'd' :: natRepr p.1)

/-- One term of `Roll.name_to_spec`: `term.split('d')` must produce exactly
`[count, die]`, both decimal numerals; the result is the `(die, count)` pair
(Python builds `{int(die): int(count)}`).  Any failure models the `ValueError`
raised by tuple unpacking or by `int`. -/
def parseTerm (term : List Char) : Option (ℕ × ℕ) :=
  match splitOnChar 'd' term with
  | [count, die] =>
      match parseNat count, parseNat die with
      | some c, some d => some (d, c)
      | _, _ => none
  | _ => none

/-- Python dict insertion used by the comprehension in `Roll.name_to_spec`:
a repeated key keeps its original position but takes the new count; a new key
is appended. -/
def specInsert (spec : List (ℕ × ℕ)) (die count : ℕ) : List (ℕ × ℕ) :=
  if spec.any fun p => p.1 = die then
    spec.map fun p => if p.1 = die then (die, count) else p
  else spec ++ [(die, count)]

/-- `Roll.name_to_spec`: split the name on `'+'`, parse each term, and build
the counter by dict comprehension.  `none` models the `ValueError` raised on a
malformed term. -/
def name_to_spec (name : List Char) : Option (List (ℕ × ℕ)) := do
  let pairs ← (splitOnChar '+' name).mapM parseTerm
  return pairs.foldl (fun spec p => specInsert spec p.1 p.2) []

/-! ## Probability engine (`rolls.py`, class `RollStats`)

The Python `Counter` of results (`RollStats.rolls`) is modelled by the plain
list of the sums of all elementary rolls (`roll_sums`): a key's count in the
`Counter` is its number of occurrences in that list, and the `Counter`'s
`total()` is the list's length. -/

/-- `itertools.product(*dice_rolls)` in `RollStats.calculate_rolls`: every
elementary outcome, one value in `1..die_type` per die. -/
def all_rolls : List ℕ → List (List ℕ)
  | [] => [[]]
  | die_type :: rest =>
      (List.range' 1 die_type).flatMap fun v => (all_rolls rest).map fun dice => v :: dice

/-- `RollStats.calculate_rolls` before counting: the final result (sum of the
dice) of each elementary outcome. -/
def roll_sums (array : List ℕ) : List ℕ :=
  (all_rolls array).map List.sum

/-- `self.rolls.total()`: the total number of elementary outcomes. -/
def rolls_total (array : List ℕ) : ℕ :=
  (roll_sums array).length

/-- `RollStats.eval`: `self.fate_roll = max(self.rolls)`, the maximum possible
result (`0` if there are no outcomes, which Python cannot reach). -/
def fate_roll (array : List ℕ) : ℕ :=
  (roll_sums array).foldr max 0

/-- `RollStats.eval`: `self.fate_probability`, the number of ways to obtain a
Fate roll divided by the total number of possible rolls. -/
def fate_probability (array : List ℕ) : ℚ :=
  ((roll_sums array).count (fate_roll array) : ℚ) / (rolls_total array : ℚ)

/-- `RollStats.eval`: `self.avg`, the plain average of all possible results. -/
def avg (array : List ℕ) : ℚ :=
  (((roll_sums array).sum : ℚ)) / (rolls_total array : ℚ)

/-- `RollStats.success_probability`: probability that the roll beats `target`
(strict), with the exploding-Fate recursion.  The Python recursion carries no
fuel; here a fuel argument makes the function total, with `none` standing for
a computation that still runs after `fuel` recursive steps.  The numerator of
the first branch, `sum(count for roll, count in self.rolls.items() if roll >
target)`, is the number of elementary outcomes whose sum exceeds `target`. -/
def success_probability (array : List ℕ) (fate : Bool) : ℤ → ℕ → Option ℚ
  | _, 0 => none
  | target, fuel + 1 =>
      if (fate_roll array : ℤ) > target then
        some (((roll_sums array).countP (fun (r : ℕ) => (r : ℤ) > target) : ℚ) / (rolls_total array : ℚ))
      else if fate = false then
        some 0
      else
        (success_probability array fate (target - (fate_roll array : ℤ)) fuel).map
          fun v => fate_probability array * v

/-- `RollStats.average`: the average roll value, with or without Fate. -/
def average (array : List ℕ) (fate : Bool) : ℚ :=
  if fate = false then avg array
  else avg array / (1 - fate_probability array)

/-! ## Table builder (`tables.py` and `probs.py`)

`probs.roll_spec_stats` calls `rolls`, `spec_to_str`, `success_probability`,
`fate_probability` and `average_roll` from an earlier functional interface of
`rolls.py` that is not part of the sources; those helpers are modelled from the
spec (§4.3 Probability Engine), matching the equally-named `RollStats` methods,
with `spec_to_str` rendering a sequence-form composition as its name. -/

/-- Modelled from the spec: `spec_to_str`, the name form of a sequence-form
composition — convert to the multiset form, then render
(`"<count>d<face>"` terms joined with `+`). -/
def spec_to_str (array : List ℕ) : List Char :=
  spec_to_name (array_to_spec array)

/-- The statistics record built by `probs.roll_spec_stats` (also
`RollStats._calculate_stats`): one success probability per configured
Difficulty Target, with and without Fate, plus the fate probability and the
averages.  Success probabilities are computed with fuel `dt + 1`, which the
termination theorem shows sufficient. -/
structure StatsRecord where
  name : List Char
  success_probs_fate : List (ℕ × Option ℚ)
  success_probs_no_fate : List (ℕ × Option ℚ)
  fate_probability : ℚ
  average_fate : ℚ
  average_no_fate : ℚ
deriving DecidableEq

instance : Inhabited StatsRecord :=
  ⟨⟨[], [], [], 0, 0, 0⟩⟩

/-- `probs.roll_spec_stats`: the statistics record of a sequence-form
composition. -/
def roll_spec_stats (array : List ℕ) : StatsRecord where
  name := spec_to_str array
  success_probs_fate :=
    DIFFICULTY_TARGETS.map fun dt => (dt, success_probability array true (dt : ℤ) (dt + 1))
  success_probs_no_fate :=
    DIFFICULTY_TARGETS.map fun dt => (dt, success_probability array false (dt : ℤ) (dt + 1))
  fate_probability := fate_probability array
  average_fate := average array true
  average_no_fate := average array false

/-- One entry of the inner dictionaries of a `RollsTable`
(`tables.rolls_table`): the same roll in sequence (`array`) and name form.
The multiset form is carried in the table too but never read by
`tables.stats_table`, so it is omitted here. -/
structure RollRecord where
  array : List ℕ
  name : List Char

/-- `tables.stats_table`: iterate over all rolls of all Dice Points values
(the values of the two nested dictionaries, in insertion order) and record the
statistics of each roll name not yet present. -/
def stats_table (rolls : List (List RollRecord)) : List (List Char × StatsRecord) :=
  rolls.foldl
    (fun table roll_options =>
      roll_options.foldl
        (fun table roll =>
          if table.any fun e => e.1 = roll.name then table
          else table ++ [(roll.name, roll_spec_stats roll.array)])
        table)
    []

example : array_to_spec [6, 6, 3] = [(6, 2), (3, 1)] := by decide
example : spec_to_name [(6, 2), (3, 1)] = ['2', 'd', '6', '+', '1', 'd', '3'] := by decide
example : name_to_spec ['2', 'd', '6', '+', '1', 'd', '3'] = some [(6, 2), (3, 1)] := by decide
example : name_to_spec ['1', 'd', 'x'] = none := by decide
example : spec_to_array [(6, 2), (3, 1)] = [6, 6, 3] := by decide

/-! ## Lemmas about the pattern generator -/

lemma le_foldr_max {x : ℕ} {l : List ℕ} (h : x ∈ l) : x ≤ l.foldr max 0 := by
  induction l with
  | nil => simp at h
  | cons a t ih =>
      rcases List.mem_cons.mp h with rfl | h
      · exact le_max_left _ _
      · exact le_max_of_le_right (ih h)

lemma foldr_max_le {l : List ℕ} {b : ℕ} (h : ∀ x ∈ l, x ≤ b) : l.foldr max 0 ≤ b := by
  induction l with
  | nil => simp
  | cons a t ih =>
      exact max_le (h a (List.mem_cons_self a t)) (ih fun x hx => h x (List.mem_cons_of_mem a hx))

lemma pairwise_ge_replicate (n a : ℕ) : (List.replicate n a).Pairwise (· ≥ ·) := by
  induction n with
  | zero => simp
  | succ k ih =>
      rw [List.replicate_succ]
      exact List.pairwise_cons.mpr ⟨fun b hb => (List.eq_of_mem_replicate hb).le, ih⟩

/-- Soundness of the recursive pattern generator: every yielded pattern obeys the
length bound, draws its elements from `values`, has a sum within `maxGap` of the
target, and is sorted non-increasingly. -/
lemma build_patterns_rec_sound (values : List ℕ) (hv : values.Pairwise (· > ·)) :
    ∀ target maxLen maxGap p, p ∈ build_patterns_rec values target maxLen maxGap →
      p.length ≤ maxLen ∧ (∀ x ∈ p, x ∈ values) ∧ p.sum ≤ target ∧
        target ≤ p.sum + maxGap ∧ p.Pairwise (· ≥ ·) := by
  induction values with
  | nil =>
      intro target maxLen maxGap p hp
      rw [build_patterns_rec] at hp
      split at hp
      · rw [List.mem_singleton] at hp
        subst hp
        simpa using by omega
      · simp at hp
  | cons head tail ih =>
      intro target maxLen maxGap p hp
      rw [build_patterns_rec] at hp
      by_cases h0 : maxLen = 0
      · rw [if_pos h0] at hp
        split at hp
        · rw [List.mem_singleton] at hp
          subst hp
          simpa using by omega
        · simp at hp
      · rw [if_neg h0] at hp
        simp only [List.mem_flatMap, List.mem_map, List.mem_range] at hp
        obtain ⟨reps, hreps, tailp, htailp, rfl⟩ := hp
        have hrl : reps ≤ min maxLen (target / head) := Nat.lt_succ_iff.mp hreps
        have hmul : head * reps ≤ target := by
          rcases Nat.eq_zero_or_pos head with hz | hpos
          · simp [hz]
          · have := (Nat.le_div_iff_mul_le hpos).mp (le_trans hrl (min_le_right _ _))
            calc head * reps = reps * head := Nat.mul_comm _ _
              _ ≤ target := this
        obtain ⟨ihl, ihmem, ihsum, ihgap, ihsort⟩ :=
          ih (List.Pairwise.of_cons hv) (target - head * reps) (maxLen - reps) maxGap tailp htailp
        have hsum : (List.replicate reps head ++ tailp).sum = head * reps + tailp.sum := by
          simp [List.sum_replicate, smul_eq_mul, Nat.mul_comm]
        refine ⟨?_, ?_, ?_, ?_, ?_⟩
        · rw [List.length_append, List.length_replicate]
          have := min_le_left maxLen (target / head)
          omega
        · intro x hx
          rcases List.mem_append.mp hx with hx | hx
          · rw [List.eq_of_mem_replicate hx]
            exact List.mem_cons_self _ _
          · exact List.mem_cons_of_mem _ (ihmem x hx)
        · omega
        · omega
        · rw [List.pairwise_append]
          refine ⟨pairwise_ge_replicate _ _, ihsort, ?_⟩
          intro a ha b hb
          rw [List.eq_of_mem_replicate ha]
          have : head > b := (List.pairwise_cons.mp hv).1 b (ihmem b hb)
          omega

/-- The empty pattern is only yielded when the target is within the allowed gap. -/
lemma nil_mem_build_patterns_rec (values : List ℕ) :
    ∀ target maxLen maxGap, [] ∈ build_patterns_rec values target maxLen maxGap →
      target ≤ maxGap := by
  induction values with
  | nil =>
      intro target maxLen maxGap h
      rw [build_patterns_rec] at h
      split at h
      · assumption
      · simp at h
  | cons head tail ih =>
      intro target maxLen maxGap h
      rw [build_patterns_rec] at h
      by_cases h0 : maxLen = 0
      · rw [if_pos h0] at h
        split at h
        · assumption
        · simp at h
      · rw [if_neg h0] at h
        simp only [List.mem_flatMap, List.mem_map, List.mem_range] at h
        obtain ⟨reps, _, tailp, htailp, heq⟩ := h
        rcases List.append_eq_nil.mp heq with ⟨hrep, rfl⟩
        have hreps : reps = 0 := by
          by_contra hne
          simp [List.replicate_eq_nil_iff] at hrep
          exact hne hrep
        subst hreps
        simpa using ih target maxLen maxGap (by simpa using htailp)

lemma mem_deduplicate_rec (l : List (List ℕ)) :
    ∀ seen p, p ∈ deduplicate_rec l seen ↔ p ∈ l ∧ p ∉ seen := by
  induction l with
  | nil => simp [deduplicate_rec]
  | cons q rest ih =>
      intro seen p
      rw [deduplicate_rec]
      by_cases hq : q ∈ seen
      · rw [if_pos hq, ih]
        constructor
        · rintro ⟨h1, h2⟩
          exact ⟨List.mem_cons_of_mem _ h1, h2⟩
        · rintro ⟨h1, h2⟩
          rcases List.mem_cons.mp h1 with rfl | h1
          · exact absurd hq h2
          · exact ⟨h1, h2⟩
      · rw [if_neg hq]
        rw [List.mem_cons, ih]
        constructor
        · rintro (rfl | ⟨h1, h2⟩)
          · exact ⟨List.mem_cons_self _ _, hq⟩
          · refine ⟨List.mem_cons_of_mem _ h1, fun hmem => h2 (List.mem_cons_of_mem _ hmem)⟩
        · rintro ⟨h1, h2⟩
          rcases List.mem_cons.mp h1 with rfl | h1
          · exact Or.inl rfl
          · by_cases hpq : p = q
            · exact Or.inl hpq
            · exact Or.inr ⟨h1, fun hmem => by
                rcases List.mem_cons.mp hmem with h | h
                · exact hpq h
                · exact h2 h⟩

lemma deduplicate_rec_nodup (l : List (List ℕ)) : ∀ seen, (deduplicate_rec l seen).Nodup := by
  induction l with
  | nil => intro seen; simp [deduplicate_rec]
  | cons q rest ih =>
      intro seen
      rw [deduplicate_rec]
      split
      · exact ih seen
      · refine List.nodup_cons.mpr ⟨fun hmem => ?_, ih _⟩
        exact ((mem_deduplicate_rec rest (q :: seen) q).mp hmem).2 (List.mem_cons_self q seen)

lemma mem_deduplicate {l : List (List ℕ)} {p : List ℕ} (h : p ∈ deduplicate l) : p ∈ l :=
  ((mem_deduplicate_rec l [] p).mp h).1

lemma deduplicate_nodup (l : List (List ℕ)) : (deduplicate l).Nodup :=
  deduplicate_rec_nodup l []

lemma largest_valid_face_le (target : ℕ) : largest_valid_face target ≤ target := by
  refine foldr_max_le fun x hx => ?_
  exact (List.mem_filter.mp hx).2 |> of_decide_eq_true

lemma le_largest_valid_face {target : ℕ} (h : 3 ≤ target) : 3 ≤ largest_valid_face target := by
  refine le_foldr_max (List.mem_filter.mpr ⟨?_, ?_⟩)
  · decide
  · exact decide_eq_true h

/-! ## Claim theorems: pattern generator -/

/-- C1. Generator soundness: for every target budget `T ≥ 3`, every sequence
yielded by `build_patterns T` is non-empty, has length at most `MAX_LEN = 3`,
is sorted in non-increasing order, draws every element from the configured face
set, and has an element sum `s` with `T - G ≤ s ≤ T`, where
`G = T - (the largest configured face ≤ T)`; moreover the yielded stream
contains no duplicate sequences. -/
theorem C1_generator_soundness (T : ℕ) (hT : 3 ≤ T) (l : List (List ℕ))
    (hl : build_patterns T = some l) :
    l.Nodup ∧ ∀ p ∈ l, p ≠ [] ∧ p.length ≤ MAX_LEN ∧ p.Pairwise (· ≥ ·) ∧
      (∀ x ∈ p, x ∈ DICE) ∧ T - (T - largest_valid_face T) ≤ p.sum ∧ p.sum ≤ T := by
  have hlvf3 : 3 ≤ largest_valid_face T := le_largest_valid_face hT
  have hlvfT : largest_valid_face T ≤ T := largest_valid_face_le T
  have hvalid : (3 : ℕ) ∈ DICE.filter fun v => v ≤ T := by
    refine List.mem_filter.mpr ⟨by decide, decide_eq_true hT⟩
  rw [build_patterns] at hl
  rw [if_neg (by intro hnil; rw [hnil] at hvalid; simp at hvalid)] at hl
  have hl' : l = deduplicate
      (build_patterns_rec (DICE.filter fun v => v ≤ T) T MAX_LEN (T - largest_valid_face T)) :=
    (Option.some_injective _ hl).symm
  subst hl'
  have hpw : (DICE.filter fun v => v ≤ T).Pairwise (· > ·) :=
    List.Pairwise.filter _ (by decide)
  refine ⟨deduplicate_nodup _, fun p hp => ?_⟩
  have hp' := mem_deduplicate hp
  obtain ⟨hlen, hmem, hsumle, hgap, hsort⟩ :=
    build_patterns_rec_sound _ hpw T MAX_LEN (T - largest_valid_face T) p hp'
  refine ⟨?_, hlen, hsort, ?_, ?_, hsumle⟩
  · rintro rfl
    have := nil_mem_build_patterns_rec _ T MAX_LEN (T - largest_valid_face T) hp'
    omega
  · exact fun x hx => (List.mem_filter.mp (hmem x hx)).1
  · omega

/-- Witness for C1 at `T = 3`: `build_patterns 3 = some [[3]]`. -/
theorem C1_generator_soundness_witness :
    ([[3]] : List (List ℕ)).Nodup ∧ ∀ p ∈ ([[3]] : List (List ℕ)),
      p ≠ [] ∧ p.length ≤ MAX_LEN ∧ p.Pairwise (· ≥ ·) ∧
      (∀ x ∈ p, x ∈ DICE) ∧ 3 - (3 - largest_valid_face 3) ≤ p.sum ∧ p.sum ≤ 3 :=
  C1_generator_soundness 3 (by decide) [[3]] (by decide)

/-- C3, counterexample: the claim requires `(6, 3)` to be yielded for budget 10,
but the generated stream for budget 10 does not contain it (its sum 9 is below
the zero tolerance for budget 10). -/
theorem C3_counterexample :
    (build_patterns 10).isSome = true ∧ [6, 3] ∉ (build_patterns 10).getD [] := by
  decide

/-- C3, amended: the set of sequences yielded by `build_patterns 10` contains
`(10,)` and `(6, 4)` but not `(6, 3)`, and contains no sequence whose element
sum is less than `10 - G` with `G = 0`. -/
theorem C3_budget10_contents :
    (build_patterns 10).isSome = true ∧
      [10] ∈ (build_patterns 10).getD [] ∧
      [6, 4] ∈ (build_patterns 10).getD [] ∧
      [6, 3] ∉ (build_patterns 10).getD [] ∧
      ∀ p ∈ (build_patterns 10).getD [], 10 - (10 - largest_valid_face 10) ≤ p.sum := by
  decide

/-- C5, counterexample: for budget 2 (below the smallest configured face 3) the
code does not return an empty composition set: `max(valid_values)` raises
`ValueError` (modelled as `none`). -/
theorem C5_counterexample : build_patterns 2 = none := by decide

/-- C5, amended: calling `build_patterns` with a budget below the smallest
configured face does not yield an empty composition set: consuming the
generator raises `ValueError` at `max(valid_values)` over the empty list of
valid faces (modelled as `none`). -/
theorem C5_below_min_face_raises (target : ℕ) (h : target < 3) :
    build_patterns target = none := by
  rw [build_patterns]
  have hnil : DICE.filter (fun v => v ≤ target) = [] := by
    interval_cases target <;> decide
  rw [if_pos hnil]

/-- Witness for C5 at `target = 1`. -/
theorem C5_below_min_face_raises_witness : build_patterns 1 = none :=
  C5_below_min_face_raises 1 (by decide)

/-! ## Lemmas about numerals and name strings -/

lemma digitVal_digitChar {d : ℕ} (h : d < 10) : digitVal (digitChar d) = some d := by
  interval_cases d <;> decide

lemma digitChar_mem_digits (d : ℕ) :
    digitChar d ∈ ['0', '1', '2', '3', '4', '5', '6', '7', '8', '9'] := by
  unfold digitChar
  split <;> decide

lemma digitChar_ne_d (d : ℕ) : digitChar d ≠ 'd' := by
  have := digitChar_mem_digits d
  intro h
  rw [h] at this
  simp at this

lemma digitChar_ne_plus (d : ℕ) : digitChar d ≠ '+' := by
  have := digitChar_mem_digits d
  intro h
  rw [h] at this
  simp at this

lemma natReprAux_eq_digits : ∀ fuel n, n ≤ fuel →
    natReprAux fuel n = ((Nat.digits 10 n).map digitChar).reverse := by
  intro fuel
  induction fuel with
  | zero =>
      intro n hn
      rw [Nat.le_zero.mp hn]
      simp [natReprAux]
  | succ k ih =>
      intro n hn
      rw [natReprAux]
      by_cases h0 : n = 0
      · simp [h0]
      · rw [if_neg h0]
        have hdiv : n / 10 ≤ k := by
          have : n / 10 < n := Nat.div_lt_self (Nat.pos_of_ne_zero h0) (by omega)
          omega
        rw [ih _ hdiv, Nat.digits_def' (by omega : 1 < 10) (Nat.pos_of_ne_zero h0)]
        simp

lemma foldlM_digits (ds : List ℕ) : ∀ acc : ℕ, (∀ d ∈ ds, d < 10) →
    List.foldlM (fun acc c => (digitVal c).map fun d => 10 * acc + d) acc (ds.map digitChar) =
      some (ds.foldl (fun a d => 10 * a + d) acc) := by
  induction ds with
  | nil => intro acc _; rfl
  | cons d t ih =>
      intro acc h
      have hd : d < 10 := h d (List.mem_cons_self d t)
      simp only [List.map_cons, List.foldlM_cons, digitVal_digitChar hd, Option.map_some',
        Option.bind_eq_bind, Option.some_bind, List.foldl_cons]
      exact ih _ fun x hx => h x (List.mem_cons_of_mem d hx)

lemma foldl_horner (L : List ℕ) : ∀ acc : ℕ,
    L.reverse.foldl (fun a d => 10 * a + d) acc = acc * 10 ^ L.length + Nat.ofDigits 10 L := by
  induction L with
  | nil => intro acc; simp
  | cons d t ih =>
      intro acc
      rw [List.reverse_cons, List.foldl_append, ih acc]
      simp only [List.foldl_cons, List.foldl_nil, Nat.ofDigits_cons, List.length_cons]
      ring

lemma parseNat_natRepr (n : ℕ) : parseNat (natRepr n) = some n := by
  by_cases h0 : n = 0
  · subst h0; rfl
  · rw [natRepr, if_neg h0, natReprAux_eq_digits n n le_rfl, parseNat]
    have hne : Nat.digits 10 n ≠ [] := Nat.digits_ne_nil_iff_ne_zero.mpr h0
    rw [if_neg (by simpa using hne)]
    rw [← List.map_reverse]
    rw [foldlM_digits _ 0 fun d hd =>
      Nat.digits_lt_base (by omega) (List.mem_reverse.mp hd)]
    rw [← List.reverse_reverse (Nat.digits 10 n)] at hne ⊢
    rw [List.reverse_reverse]
    rw [show (Nat.digits 10 n) = (Nat.digits 10 n).reverse.reverse by simp] at hne ⊢
    rw [foldl_horner]
    simp [Nat.ofDigits_digits]

lemma natRepr_chars {n : ℕ} {c : Char} (h : c ∈ natRepr n) :
    c ∈ ['0', '1', '2', '3', '4', '5', '6', '7', '8', '9'] := by
  rw [natRepr] at h
  split at h
  · rcases List.mem_singleton.mp h with rfl
    decide
  · rw [natReprAux_eq_digits n n le_rfl, List.mem_reverse] at h
    obtain ⟨d, _, rfl⟩ := List.mem_map.mp h
    exact digitChar_mem_digits d

lemma natRepr_ne_d {n : ℕ} {c : Char} (h : c ∈ natRepr n) : c ≠ 'd' := by
  have := natRepr_chars h
  intro heq
  rw [heq] at this
  simp at this

lemma natRepr_ne_plus {n : ℕ} {c : Char} (h : c ∈ natRepr n) : c ≠ '+' := by
  have := natRepr_chars h
  intro heq
  rw [heq] at this
  simp at this

lemma splitOnChar_ne_nil (sep : Char) (s : List Char) : splitOnChar sep s ≠ [] := by
  cases s with
  | nil => simp [splitOnChar]
  | cons c rest =>
      rw [splitOnChar]
      rcases h : splitOnChar sep rest with _ | ⟨cur, others⟩
      · simp
      · by_cases hc : c = sep <;> simp [hc]

lemma splitOnChar_no_sep {sep : Char} {s : List Char} (h : sep ∉ s) :
    splitOnChar sep s = [s] := by
  induction s with
  | nil => rfl
  | cons c rest ih =>
      rw [splitOnChar]
      have hc : c ≠ sep := fun heq => h (heq ▸ List.mem_cons_self c rest)
      rw [ih fun hmem => h (List.mem_cons_of_mem c hmem)]
      simp [hc]

lemma splitOnChar_append {sep : Char} {xs : List Char} (h : sep ∉ xs) :
    ∀ {ys : List Char} {hd : List Char} {tl : List (List Char)},
      splitOnChar sep ys = hd :: tl → splitOnChar sep (xs ++ ys) = (xs ++ hd) :: tl := by
  induction xs with
  | nil => intro ys hd tl hys; simpa using hys
  | cons c xs' ih =>
      intro ys hd tl hys
      have hc : c ≠ sep := fun heq => h (heq ▸ List.mem_cons_self c xs')
      have := ih (fun hmem => h (List.mem_cons_of_mem c hmem)) hys
      rw [List.cons_append, splitOnChar, this]
      simp [hc]

lemma intercalate_cons_cons (s a b : List Char) (t : List (List Char)) :
    List.intercalate s (a :: b :: t) = a ++ s ++ List.intercalate s (b :: t) := by
  simp [List.intercalate, List.intersperse]

lemma splitOnChar_intercalate {sep : Char} :
    ∀ (parts : List (List Char)), parts ≠ [] → (∀ p ∈ parts, sep ∉ p) →
      splitOnChar sep (List.intercalate [sep] parts) = parts := by
  intro parts
  induction parts with
  | nil => intro h; exact absurd rfl h
  | cons p rest ih =>
      intro _ hsep
      cases rest with
      | nil =>
          have h1 : List.intercalate [sep] [p] = p := by simp [List.intercalate]
          rw [h1]
          exact splitOnChar_no_sep (hsep p (List.mem_cons_self p []))
      | cons q rest' =>
          rw [intercalate_cons_cons]
          have hrec : splitOnChar sep (List.intercalate [sep] (q :: rest')) = q :: rest' :=
            ih (by simp) fun r hr => hsep r (List.mem_cons_of_mem p hr)
          have hsepsplit : splitOnChar sep (sep :: List.intercalate [sep] (q :: rest')) =
              [] :: q :: rest' := by
            rw [splitOnChar, hrec]
            simp
          have happ := splitOnChar_append (hsep p (List.mem_cons_self p _)) hsepsplit
          rw [List.append_assoc]
          simpa using happ

lemma parseTerm_roundtrip (die count : ℕ) :
    parseTerm (natRepr count ++ 'd' :: natRepr die) = some (die, count) := by
  have hsplit : splitOnChar 'd' (natRepr count ++ 'd' :: natRepr die) =
      [natRepr count, natRepr die] := by
    have hdie : splitOnChar 'd' (natRepr die) = [natRepr die] :=
      splitOnChar_no_sep fun hmem => natRepr_ne_d hmem rfl
    have hsep : splitOnChar 'd' ('d' :: natRepr die) = [] :: [natRepr die] := by
      rw [splitOnChar, hdie]
      simp
    have := @splitOnChar_append 'd' (natRepr count) (fun hmem => natRepr_ne_d hmem rfl)
      ('d' :: natRepr die) [] [natRepr die] hsep
    simpa using this
  rw [parseTerm, hsplit]
  simp [parseNat_natRepr]

lemma mapM_of_forall_some {α β : Type} (f : α → Option β) (g : α → β) :
    ∀ (l : List α), (∀ x ∈ l, f x = some (g x)) → l.mapM f = some (l.map g) := by
  intro l
  induction l with
  | nil => intro _; rfl
  | cons x t ih =>
      intro h
      rw [List.mapM_cons, h x (List.mem_cons_self x t), ih fun y hy => h y (List.mem_cons_of_mem x hy)]
      rfl

lemma foldl_specInsert_of_nodup :
    ∀ (spec acc : List (ℕ × ℕ)),
      ((acc ++ spec).map Prod.fst).Nodup →
      spec.foldl (fun s p => specInsert s p.1 p.2) acc = acc ++ spec := by
  intro spec
  induction spec with
  | nil => intro acc _; simp
  | cons e rest ih =>
      intro acc hnd
      have hnot : (acc.any fun p => p.1 = e.1) = false := by
        rw [List.any_eq_false]
        intro p hp
        simp only [decide_eq_true_eq]
        intro heq
        have hmem1 : p.1 ∈ acc.map Prod.fst := List.mem_map_of_mem _ hp
        have hmem2 : e.1 ∈ (e :: rest).map Prod.fst := by simp
        have hnd' : (acc.map Prod.fst ++ (e :: rest).map Prod.fst).Nodup := by
          simpa using hnd
        exact (List.nodup_append.mp hnd').2.2 hmem1 (heq ▸ hmem2)
      have hstep : specInsert acc e.1 e.2 = acc ++ [e] := by
        rw [specInsert, if_neg (by simp [hnot])]
      rw [List.foldl_cons, hstep]
      have hih := ih (acc ++ [e]) (by simpa using hnd)
      rw [hih]
      simp

lemma mapM_parseTerm_map (spec : List (ℕ × ℕ)) :
    (spec.map fun p => natRepr p.2 ++ 'd' :: natRepr p.1).mapM parseTerm = some spec := by
  induction spec with
  | nil => rfl
  | cons e rest ih =>
      rw [List.map_cons, List.mapM_cons, parseTerm_roundtrip, ih]
      simp

/-- Parsing inverts rendering for any multiset form with distinct faces:
`name_to_spec (spec_to_name spec) = some spec`.  No face-set validation is
involved: the faces are arbitrary naturals. -/
lemma name_to_spec_spec_to_name (spec : List (ℕ × ℕ)) (hne : spec ≠ [])
    (hnd : (spec.map Prod.fst).Nodup) :
    name_to_spec (spec_to_name spec) = some spec := by
  have hsplit : splitOnChar '+' (spec_to_name spec) =
      spec.map fun p => natRepr p.2 ++ 'd' :: natRepr p.1 := by
    rw [spec_to_name]
    refine splitOnChar_intercalate _ (by simpa using hne) ?_
    intro t ht hmem
    obtain ⟨q, _, rfl⟩ := List.mem_map.mp ht
    rcases List.mem_append.mp hmem with h | h
    · exact natRepr_ne_plus h rfl
    · rcases List.mem_cons.mp h with h | h
      · exact absurd h.symm (by decide)
      · exact natRepr_ne_plus h rfl
  rw [name_to_spec, hsplit, mapM_parseTerm_map]
  have := foldl_specInsert_of_nodup spec [] (by simpa using hnd)
  simp only [Option.bind_eq_bind, Option.some_bind] at *
  rw [this]
  simp

lemma map_addToSpec_id {acc : List (ℕ × ℕ)} {x : ℕ}
    (hacc : (acc.any fun p => p.1 = x) = false) :
    (acc.map fun p => if p.1 = x then (p.1, p.2 + 1) else p) = acc := by
  have h : ∀ p ∈ acc, (if p.1 = x then (p.1, p.2 + 1) else p) = p := by
    intro p hp
    rw [if_neg]
    rw [List.any_eq_false] at hacc
    have := hacc p hp
    simpa using this
  rw [List.map_congr_left h]
  exact List.map_id _

lemma foldl_addToSpec_replicate_aux (d : ℕ) :
    ∀ (n k : ℕ) (acc : List (ℕ × ℕ)), (acc.any fun p => p.1 = d) = false →
      List.foldl addToSpec (acc ++ [(d, k)]) (List.replicate n d) = acc ++ [(d, k + n)] := by
  intro n
  induction n with
  | zero => intro k acc _; simp
  | succ m ih =>
      intro k acc hacc
      rw [List.replicate_succ, List.foldl_cons]
      have hstep : addToSpec (acc ++ [(d, k)]) d = acc ++ [(d, k + 1)] := by
        rw [addToSpec, if_pos (by simp), List.map_append, map_addToSpec_id hacc]
        simp
      rw [hstep, ih (k + 1) acc hacc]
      have heq : k + 1 + m = k + (m + 1) := by omega
      rw [heq]

lemma foldl_addToSpec_prefix (es : List (ℕ × ℕ)) :
    ∀ (rest : List ℕ) (acc : List (ℕ × ℕ)), (∀ x ∈ rest, ∀ e ∈ es, e.1 ≠ x) →
      List.foldl addToSpec (es ++ acc) rest = es ++ List.foldl addToSpec acc rest := by
  intro rest
  induction rest with
  | nil => intro acc _; simp
  | cons x rest' ih =>
      intro acc h
      rw [List.foldl_cons, List.foldl_cons]
      have hes : (es.any fun p => p.1 = x) = false := by
        rw [List.any_eq_false]
        intro p hp
        simpa using h x (List.mem_cons_self x rest') p hp
      have hmapes : (es.map fun p => if p.1 = x then (p.1, p.2 + 1) else p) = es :=
        map_addToSpec_id hes
      have hstep : addToSpec (es ++ acc) x = es ++ addToSpec acc x := by
        rw [addToSpec, addToSpec, List.any_append, hes, Bool.false_or]
        by_cases hacc : (acc.any fun p => p.1 = x) = true
        · rw [if_pos hacc, if_pos hacc, List.map_append, hmapes]
        · rw [if_neg hacc, if_neg hacc, List.append_assoc]
      rw [hstep]
      exact ih _ fun y hy e he => h y (List.mem_cons_of_mem x hy) e he

lemma array_to_spec_group (d n : ℕ) (hn : 1 ≤ n) (rest : List ℕ)
    (hrest : ∀ x ∈ rest, x ≠ d) :
    array_to_spec (List.replicate n d ++ rest) = (d, n) :: array_to_spec rest := by
  rw [array_to_spec, List.foldl_append]
  have h1 : List.foldl addToSpec [] (List.replicate n d) = [(d, n)] := by
    obtain ⟨m, rfl⟩ : ∃ m, n = m + 1 := ⟨n - 1, by omega⟩
    rw [List.replicate_succ, List.foldl_cons]
    have hfirst : addToSpec [] d = [] ++ [(d, 1)] := by rw [addToSpec]; simp
    rw [hfirst, foldl_addToSpec_replicate_aux d m 1 [] (by simp)]
    simp
    omega
  rw [h1]
  have := foldl_addToSpec_prefix [(d, n)] rest [] (by
    intro x hx e he
    rcases List.mem_singleton.mp he with rfl
    simpa using fun heq => hrest x hx heq.symm)
  simpa [array_to_spec] using this

lemma sorted_group_decomp (p : List ℕ) (hne : p ≠ []) (hs : p.Pairwise (· ≥ ·)) :
    ∃ d n rest, p = List.replicate n d ++ rest ∧ 1 ≤ n ∧ n + rest.length = p.length ∧
      rest.Pairwise (· ≥ ·) ∧ ∀ x ∈ rest, x < d := by
  obtain ⟨d, t, rfl⟩ : ∃ d t, p = d :: t := by
    cases p with
    | nil => exact absurd rfl hne
    | cons a t => exact ⟨a, t, rfl⟩
  have hsplit : ((d :: t).takeWhile fun x => x == d) ++ ((d :: t).dropWhile fun x => x == d) =
      d :: t := List.takeWhile_append_dropWhile _ _
  have htw_rep : ((d :: t).takeWhile fun x => x == d) =
      List.replicate ((d :: t).takeWhile fun x => x == d).length d := by
    refine List.eq_replicate_of_mem fun b hb => ?_
    have := List.mem_takeWhile_imp hb
    simpa using this
  have htw_len : 1 ≤ ((d :: t).takeWhile fun x => x == d).length := by
    rw [List.takeWhile_cons]
    simp
  have hdw_sorted : ((d :: t).dropWhile fun x => x == d).Pairwise (· ≥ ·) :=
    hs.sublist (List.dropWhile_sublist _)
  have hle : ∀ x ∈ (d :: t).dropWhile fun x => x == d, x ≤ d := by
    intro x hx
    have hxp : x ∈ d :: t := (List.dropWhile_sublist _).mem hx
    rcases List.mem_cons.mp hxp with rfl | hxt
    · exact le_rfl
    · exact (List.pairwise_cons.mp hs).1 x hxt
  have hlt : ∀ x ∈ (d :: t).dropWhile fun x => x == d, x < d := by
    intro x hx
    have hdw_ne : ((d :: t).dropWhile fun x => x == d) ≠ [] := List.ne_nil_of_mem hx
    have hhead := List.head_dropWhile_not (fun x => x == d) (d :: t) hdw_ne
    have hhead_ne : ((d :: t).dropWhile fun x => x == d).head hdw_ne ≠ d := by
      simpa using hhead
    have hhead_le : ((d :: t).dropWhile fun x => x == d).head hdw_ne ≤ d :=
      hle _ (List.head_mem hdw_ne)
    have hx_le_head : x ≤ ((d :: t).dropWhile fun x => x == d).head hdw_ne := by
      have hcons := List.head_cons_tail _ hdw_ne
      have hsorted' : (((d :: t).dropWhile fun x => x == d).head hdw_ne ::
          ((d :: t).dropWhile fun x => x == d).tail).Pairwise (· ≥ ·) := by
        rw [hcons]; exact hdw_sorted
      have hx' : x ∈ ((d :: t).dropWhile fun x => x == d).head hdw_ne ::
          ((d :: t).dropWhile fun x => x == d).tail := by
        rw [hcons]; exact hx
      rcases List.mem_cons.mp hx' with heq | hxt
      · exact le_of_eq heq
      · exact (List.pairwise_cons.mp hsorted').1 x hxt
    omega
  refine ⟨d, ((d :: t).takeWhile fun x => x == d).length,
    (d :: t).dropWhile fun x => x == d, ?_, htw_len, ?_, hdw_sorted, hlt⟩
  · rw [← htw_rep]
    exact hsplit.symm
  · have hlen := congrArg List.length hsplit
    rw [List.length_append] at hlen
    simpa using hlen

/-- For a non-increasing array, `array_to_spec` produces the grouped run-length
form: `spec_to_array` inverts it, its faces are strictly decreasing (hence
distinct), every face occurs in the array, and it is non-empty iff the array
is. -/
lemma array_to_spec_props : ∀ (N : ℕ) (p : List ℕ), p.length ≤ N → p.Pairwise (· ≥ ·) →
    spec_to_array (array_to_spec p) = p ∧
      ((array_to_spec p).map Prod.fst).Pairwise (· > ·) ∧
      (∀ k ∈ (array_to_spec p).map Prod.fst, k ∈ p) ∧
      (p ≠ [] → array_to_spec p ≠ []) := by
  intro N
  induction N with
  | zero =>
      intro p hlen _
      have : p = [] := List.length_eq_zero.mp (Nat.le_zero.mp hlen)
      subst this
      refine ⟨rfl, by simp [array_to_spec], by simp [array_to_spec], fun h => absurd rfl h⟩
  | succ M ih =>
      intro p hlen hs
      by_cases hne : p = []
      · subst hne
        refine ⟨rfl, by simp [array_to_spec], by simp [array_to_spec], fun h => absurd rfl h⟩
      · obtain ⟨d, n, rest, rfl, hn, hlen', hrest_s, hrest_lt⟩ := sorted_group_decomp p hne hs
        have hrest_ne : ∀ x ∈ rest, x ≠ d := fun x hx => ne_of_lt (hrest_lt x hx)
        have hgroup := array_to_spec_group d n hn rest hrest_ne
        have hrest_len : rest.length ≤ M := by
          rw [List.length_append, List.length_replicate] at hlen
          omega
        obtain ⟨ih1, ih2, ih3, _⟩ := ih rest hrest_len hrest_s
        rw [hgroup]
        refine ⟨?_, ?_, ?_, fun _ => by simp⟩
        · rw [spec_to_array, List.flatMap_cons]
          rw [spec_to_array] at ih1
          rw [ih1]
        · rw [List.map_cons]
          refine List.pairwise_cons.mpr ⟨fun k hk => hrest_lt k (ih3 k hk), ih2⟩
        · intro k hk
          rcases List.mem_cons.mp hk with rfl | hk
          · exact List.mem_append.mpr (Or.inl (by simp [List.mem_replicate]; omega))
          · exact List.mem_append.mpr (Or.inr (ih3 k hk))

/-! ## Claim theorems: roll representation -/

/-- C4. Round-trip of the three composition forms: for every non-empty,
non-increasing sequence of configured faces, applying `array_to_spec`, then
`spec_to_name`, then `name_to_spec`, then `spec_to_array` reproduces exactly
the original sequence. -/
theorem C4_roundtrip (p : List ℕ) (hne : p ≠ []) (hs : p.Pairwise (· ≥ ·))
    (hfaces : ∀ x ∈ p, x ∈ DICE) :
    (name_to_spec (spec_to_name (array_to_spec p))).map spec_to_array = some p := by
  obtain ⟨h1, h2, _, h4⟩ := array_to_spec_props p.length p le_rfl hs
  have hnd : ((array_to_spec p).map Prod.fst).Nodup := h2.imp ne_of_gt
  rw [name_to_spec_spec_to_name _ (h4 hne) hnd, Option.map_some', h1]

/-- Witness for C4 at the sequence `(6, 6, 3)`. -/
theorem C4_roundtrip_witness :
    (name_to_spec (spec_to_name (array_to_spec [6, 6, 3]))).map spec_to_array =
      some [6, 6, 3] :=
  C4_roundtrip [6, 6, 3] (by decide) (by decide) (by decide)

/-- C6, counterexample: the multisets `{6: 2, 3: 1}` and `{3: 1, 6: 2}` are
equal as mappings (the same entries, permuted), yet `spec_to_name` renders them
as the distinct strings `"2d6+1d3"` and `"1d3+2d6"`: the name is not
order-independent. -/
theorem C6_counterexample :
    ([(6, 2), (3, 1)] : List (ℕ × ℕ)).Perm [(3, 1), (6, 2)] ∧
      spec_to_name [(6, 2), (3, 1)] ≠ spec_to_name [(3, 1), (6, 2)] := by
  constructor
  · decide
  · decide

/-- C6, amended: `spec_to_name` joins its `"<count>d<face>"` terms in the order
the entries appear in the mapping (Python dict insertion order), not in a
canonical descending order; for the multiset form built by `array_to_spec` from
a non-increasing sequence the faces are strictly decreasing, so exactly then
the name's terms are ordered by descending face.  Multisets equal as mappings
but listed in different orders may render differently. -/
theorem C6_name_order (p : List ℕ) (hs : p.Pairwise (· ≥ ·)) :
    ((array_to_spec p).map Prod.fst).Pairwise (· > ·) :=
  (array_to_spec_props p.length p le_rfl hs).2.1

/-- Witness for C6 at the sequence `(6, 6, 3)`. -/
theorem C6_name_order_witness :
    ((array_to_spec [6, 6, 3]).map Prod.fst).Pairwise (· > ·) :=
  C6_name_order [6, 6, 3] (by decide)

lemma all_rolls_length : ∀ a : List ℕ, (all_rolls a).length = a.prod := by
  intro a
  induction a with
  | nil => rfl
  | cons f rest ih =>
      rw [all_rolls, List.length_flatMap]
      have hmap : (List.range' 1 f).map
          (List.length ∘ fun v => (all_rolls rest).map fun dice => v :: dice) =
          (List.range' 1 f).map fun _v => rest.prod := by
        refine List.map_congr_left fun v _ => ?_
        simp [ih]
      rw [hmap, List.map_const', List.length_range', List.sum_replicate, List.prod_cons]
      simp [Nat.mul_comm]

lemma rolls_total_eq_prod (a : List ℕ) : rolls_total a = a.prod := by
  rw [rolls_total, roll_sums, List.length_map, all_rolls_length]

lemma roll_sums_cons (f : ℕ) (rest : List ℕ) :
    roll_sums (f :: rest) = (List.range' 1 f).flatMap fun v => (roll_sums rest).map (v + ·) := by
  rw [roll_sums, all_rolls, List.map_flatMap]
  congr 1
  funext v
  rw [List.map_map, roll_sums, List.map_map]
  congr 1

lemma roll_sums_le : ∀ (a : List ℕ) (x : ℕ), x ∈ roll_sums a → x ≤ a.sum := by
  intro a
  induction a with
  | nil =>
      intro x hx
      rcases List.mem_singleton.mp hx with rfl
      simp
  | cons f rest ih =>
      intro x hx
      rw [roll_sums_cons] at hx
      obtain ⟨v, hv, hx⟩ := List.mem_flatMap.mp hx
      obtain ⟨y, hy, rfl⟩ := List.mem_map.mp hx
      obtain ⟨_, hv2⟩ := List.mem_range'.mp hv
      have := ih y hy
      rw [List.sum_cons]
      omega

lemma sum_mem_roll_sums : ∀ (a : List ℕ), (∀ f ∈ a, 1 ≤ f) → a.sum ∈ roll_sums a := by
  intro a
  induction a with
  | nil => intro _; simp [roll_sums, all_rolls]
  | cons f rest ih =>
      intro h
      rw [roll_sums_cons, List.sum_cons]
      refine List.mem_flatMap.mpr ⟨f, ?_, ?_⟩
      · exact List.mem_range'_1.mpr ⟨h f (List.mem_cons_self f rest), by omega⟩
      · exact List.mem_map.mpr ⟨rest.sum, ih fun x hx => h x (List.mem_cons_of_mem f hx), rfl⟩

lemma count_map_add (v c : ℕ) (l : List ℕ) :
    (l.map fun y => v + y).count c = if v ≤ c then l.count (c - v) else 0 := by
  rw [List.count, List.countP_map]
  split
  · rw [List.count]
    refine List.countP_congr fun y _ => ?_
    simp only [Function.comp_apply, beq_iff_eq, decide_eq_true_eq]
    omega
  · rw [List.countP_eq_zero]
    intro y _
    simp only [Function.comp_apply, beq_iff_eq, decide_eq_true_eq]
    omega

lemma count_flatMap (g : ℕ → List ℕ) (c : ℕ) :
    ∀ l : List ℕ, (l.flatMap g).count c = (l.map fun x => (g x).count c).sum := by
  intro l
  induction l with
  | nil => rfl
  | cons x t ih => simp [List.flatMap_cons, List.count_append, ih]

lemma sum_map_indicator (f : ℕ) : ∀ l : List ℕ,
    (l.map fun v => if v = f then 1 else 0).sum = l.count f := by
  intro l
  induction l with
  | nil => rfl
  | cons x t ih =>
      rw [List.map_cons, List.sum_cons, ih, List.count_cons]
      by_cases hx : x = f
      · simp [hx]
        omega
      · simp [hx]

lemma count_sum_roll_sums : ∀ (a : List ℕ), (∀ f ∈ a, 1 ≤ f) →
    (roll_sums a).count a.sum = 1 := by
  intro a
  induction a with
  | nil => intro _; rfl
  | cons f rest ih =>
      intro h
      have hf : 1 ≤ f := h f (List.mem_cons_self f rest)
      rw [roll_sums_cons, List.sum_cons, count_flatMap]
      have hterm : ∀ v ∈ List.range' 1 f,
          ((roll_sums rest).map (v + ·)).count (f + rest.sum) = if v = f then 1 else 0 := by
        intro v hv
        obtain ⟨hv1, hv2⟩ := List.mem_range'_1.mp hv
        rw [count_map_add, if_pos (by omega)]
        rcases eq_or_ne v f with rfl | hne
        · rw [if_pos rfl]
          have heq : v + rest.sum - v = rest.sum := by omega
          rw [heq]
          exact ih fun x hx => h x (List.mem_cons_of_mem v hx)
        · rw [if_neg hne]
          rw [List.count_eq_zero]
          intro hmem
          have hle := roll_sums_le rest _ hmem
          omega
      rw [List.map_congr_left hterm, sum_map_indicator]
      have hmem : f ∈ List.range' 1 f := List.mem_range'_1.mpr ⟨hf, by omega⟩
      have hnd : (List.range' 1 f).Nodup := List.nodup_range' 1 f
      have h1 := List.count_pos_iff.mpr hmem
      have h2 := List.nodup_iff_count_le_one.mp hnd f
      omega

lemma fate_roll_eq_sum (a : List ℕ) (h : ∀ f ∈ a, 1 ≤ f) : fate_roll a = a.sum := by
  refine le_antisymm ?_ ?_
  · exact foldr_max_le fun x hx => roll_sums_le a x hx
  · exact le_foldr_max (sum_mem_roll_sums a h)

/-! ## Claim theorems: outcome distribution -/

/-- C10. For every non-empty composition with faces each at least 1, the
outcome distribution computed by `calculate_rolls` assigns count exactly 1 to
its maximum key (the sum of the faces), the total of all counts equals the
product of the faces, and therefore the `fate_probability` computed by `eval`
equals `1 / product`, which lies in `(0, 1]`. -/
theorem C10_fate_probability (a : List ℕ) (hne : a ≠ []) (h1 : ∀ f ∈ a, 1 ≤ f) :
    fate_roll a = a.sum ∧
      (roll_sums a).count a.sum = 1 ∧
      rolls_total a = a.prod ∧
      fate_probability a = 1 / (a.prod : ℚ) ∧
      0 < fate_probability a ∧ fate_probability a ≤ 1 := by
  have hfr := fate_roll_eq_sum a h1
  have hcount := count_sum_roll_sums a h1
  have htotal := rolls_total_eq_prod a
  have hprod : 1 ≤ a.prod := List.one_le_prod_of_one_le h1
  have hfp : fate_probability a = 1 / (a.prod : ℚ) := by
    rw [fate_probability, hfr, hcount, htotal]
    norm_num
  refine ⟨hfr, hcount, htotal, hfp, ?_, ?_⟩
  · rw [hfp]
    positivity
  · rw [hfp]
    rw [div_le_one (by positivity)]
    exact_mod_cast hprod

/-- Witness for C10 at the composition `(6,)`. -/
theorem C10_fate_probability_witness :
    fate_roll [6] = [6].sum ∧
      (roll_sums [6]).count [6].sum = 1 ∧
      rolls_total [6] = [6].prod ∧
      fate_probability [6] = 1 / (([6] : List ℕ).prod : ℚ) ∧
      0 < fate_probability [6] ∧ fate_probability [6] ≤ 1 :=
  C10_fate_probability [6] (by decide) (by decide)

/-! ## Lemmas about `success_probability` -/

lemma fate_roll_pos (a : List ℕ) (hne : a ≠ []) (h1 : ∀ f ∈ a, 1 ≤ f) :
    1 ≤ fate_roll a := by
  rw [fate_roll_eq_sum a h1]
  obtain ⟨f, t, rfl⟩ : ∃ f t, a = f :: t := by
    cases a with
    | nil => exact absurd rfl hne
    | cons f t => exact ⟨f, t, rfl⟩
  have := h1 f (List.mem_cons_self f t)
  rw [List.sum_cons]
  omega

lemma rolls_total_pos (a : List ℕ) (h1 : ∀ f ∈ a, 1 ≤ f) : 0 < (rolls_total a : ℚ) := by
  rw [rolls_total_eq_prod]
  have : 1 ≤ a.prod := List.one_le_prod_of_one_le h1
  exact_mod_cast Nat.lt_of_lt_of_le Nat.zero_lt_one this

lemma fate_probability_nonneg (a : List ℕ) : 0 ≤ fate_probability a := by
  rw [fate_probability]
  positivity

lemma sp_fuel_le {a : List ℕ} {fate : Bool} :
    ∀ {n m : ℕ} {t : ℤ} {v : ℚ}, n ≤ m →
      success_probability a fate t n = some v → success_probability a fate t m = some v := by
  intro n
  induction n with
  | zero =>
      intro m t v _ h
      rw [success_probability] at h
      exact absurd h (by simp)
  | succ k ih =>
      intro m t v hnm h
      obtain ⟨m', rfl⟩ : ∃ m', m = m' + 1 := ⟨m - 1, by omega⟩
      rw [success_probability] at h ⊢
      split_ifs at h ⊢ with hc hf
      · exact h
      · exact h
      · rcases hrec : success_probability a fate (t - (fate_roll a : ℤ)) k with _ | w
        · rw [hrec] at h
          simp at h
        · rw [hrec] at h
          rw [ih (by omega) hrec]
          exact h

lemma sp_nonneg {a : List ℕ} {fate : Bool} :
    ∀ {n : ℕ} {t : ℤ} {v : ℚ}, success_probability a fate t n = some v → 0 ≤ v := by
  intro n
  induction n with
  | zero =>
      intro t v h
      rw [success_probability] at h
      exact absurd h (by simp)
  | succ k ih =>
      intro t v h
      rw [success_probability] at h
      split_ifs at h with hc hf
      · rw [Option.some_inj] at h
        subst h
        positivity
      · rw [Option.some_inj] at h
        subst h
        exact le_rfl
      · rcases hrec : success_probability a fate (t - (fate_roll a : ℤ)) k with _ | w
        · rw [hrec] at h
          simp at h
        · rw [hrec] at h
          rw [Option.map_some', Option.some_inj] at h
          subst h
          exact mul_nonneg (fate_probability_nonneg a) (ih hrec)

lemma fate_probability_le_one (a : List ℕ) : fate_probability a ≤ 1 := by
  rw [fate_probability]
  refine div_le_one_of_le ?_ (by positivity)
  exact_mod_cast List.count_le_length _ _

lemma sp_le_one {a : List ℕ} {fate : Bool} :
    ∀ {n : ℕ} {t : ℤ} {v : ℚ}, success_probability a fate t n = some v → v ≤ 1 := by
  intro n
  induction n with
  | zero =>
      intro t v h
      rw [success_probability] at h
      exact absurd h (by simp)
  | succ k ih =>
      intro t v h
      rw [success_probability] at h
      split_ifs at h with hc hf
      · rw [Option.some_inj] at h
        subst h
        refine div_le_one_of_le ?_ (by positivity)
        have : (roll_sums a).countP (fun (r : ℕ) => (r : ℤ) > t) ≤ (roll_sums a).length :=
          List.countP_le_length _
        rw [rolls_total]
        exact_mod_cast this
      · rw [Option.some_inj] at h
        subst h
        exact zero_le_one
      · rcases hrec : success_probability a fate (t - (fate_roll a : ℤ)) k with _ | w
        · rw [hrec] at h
          simp at h
        · rw [hrec] at h
          rw [Option.map_some', Option.some_inj] at h
          subst h
          exact mul_le_one (fate_probability_le_one a) (sp_nonneg hrec) (ih hrec)

lemma sp_terminates (a : List ℕ) (hfr : 1 ≤ fate_roll a) (fate : Bool) :
    ∀ (n : ℕ) (target : ℤ), target.toNat ≤ n →
      ∃ v, success_probability a fate target (n + 1) = some v := by
  intro n
  induction n with
  | zero =>
      intro target ht
      rw [success_probability, if_pos (by omega)]
      exact ⟨_, rfl⟩
  | succ k ih =>
      intro target ht
      rw [success_probability]
      by_cases hcond : (fate_roll a : ℤ) > target
      · rw [if_pos hcond]
        exact ⟨_, rfl⟩
      · rw [if_neg hcond]
        by_cases hfate : fate = false
        · rw [if_pos hfate]
          exact ⟨0, rfl⟩
        · rw [if_neg hfate]
          obtain ⟨w, hw⟩ := ih (target - (fate_roll a : ℤ)) (by omega)
          rw [hw]
          exact ⟨_, rfl⟩

/-! ## Claim theorems: recursion of `success_probability` -/

/-- C2. For every non-empty composition whose faces are all at least 1, the
recursion of `success_probability` terminates for every integer target and both
values of `fate`: fuel `target.toNat + 1` always suffices to produce a value,
because each recursive call strictly decreases the target by
`fate_roll ≥ 1` until the base case `fate_roll > target` is reached. -/
theorem C2_termination (a : List ℕ) (hne : a ≠ []) (h1 : ∀ f ∈ a, 1 ≤ f)
    (target : ℤ) (fate : Bool) :
    ∃ v, success_probability a fate target (target.toNat + 1) = some v :=
  sp_terminates a (fate_roll_pos a hne h1) fate target.toNat target le_rfl

/-- Witness for C2 at the composition `(3,)`, target 5, with Fate. -/
theorem C2_termination_witness :
    ∃ v, success_probability [3] true 5 ((5 : ℤ).toNat + 1) = some v :=
  C2_termination [3] (by decide) (by decide) 5 true

lemma count_fate_le_countP {a : List ℕ} {t : ℤ} (h : t < (fate_roll a : ℤ)) :
    (roll_sums a).count (fate_roll a) ≤
      (roll_sums a).countP fun (r : ℕ) => (r : ℤ) > t := by
  rw [List.count]
  refine List.countP_mono_left fun r _ hr => ?_
  simp only [beq_iff_eq] at hr
  simp only [decide_eq_true_eq]
  omega

/-- C8. Monotonicity: for every non-empty composition with faces at least 1,
fixed fate flag, and integer targets `0 ≤ t1 ≤ t2`, any values produced by
`success_probability` at `t2` and at `t1` (with any sufficient fuels) satisfy
`v2 ≤ v1` — including across the boundary between the exact branch
(`fate_roll > target`) and the recursive exploding branch. -/
theorem C8_monotone (a : List ℕ) (hne : a ≠ []) (hf : ∀ f ∈ a, 1 ≤ f) (fate : Bool) :
    ∀ (n2 : ℕ) (t1 t2 : ℤ) (n1 : ℕ) (v1 v2 : ℚ), 0 ≤ t1 → t1 ≤ t2 →
      success_probability a fate t1 n1 = some v1 →
      success_probability a fate t2 n2 = some v2 →
      v2 ≤ v1 := by
  have htot : 0 < (rolls_total a : ℚ) := rolls_total_pos a hf
  intro n2
  induction n2 with
  | zero =>
      intro t1 t2 n1 v1 v2 _ _ _ e2
      rw [success_probability] at e2
      exact absurd e2 (by simp)
  | succ k ih =>
      intro t1 t2 n1 v1 v2 h0 h12 e1 e2
      have hv1_nonneg : 0 ≤ v1 := sp_nonneg e1
      obtain ⟨m, rfl⟩ : ∃ m, n1 = m + 1 := by
        cases n1 with
        | zero =>
            rw [success_probability] at e1
            exact absurd e1 (by simp)
        | succ m => exact ⟨m, rfl⟩
      rw [success_probability] at e1 e2
      by_cases hc2 : (fate_roll a : ℤ) > t2
      · have hc1 : (fate_roll a : ℤ) > t1 := by omega
        rw [if_pos hc2] at e2
        rw [if_pos hc1] at e1
        rw [Option.some_inj] at e1 e2
        subst e1
        subst e2
        rw [div_le_div_iff_of_pos_right htot]
        have hcount : (roll_sums a).countP (fun (r : ℕ) => (r : ℤ) > t2) ≤
            (roll_sums a).countP fun (r : ℕ) => (r : ℤ) > t1 := by
          refine List.countP_mono_left fun r _ hr => ?_
          simp only [decide_eq_true_eq] at hr ⊢
          omega
        exact_mod_cast hcount
      · rw [if_neg hc2] at e2
        by_cases hfate : fate = false
        · rw [if_pos hfate] at e2
          rw [Option.some_inj] at e2
          subst e2
          exact hv1_nonneg
        · rw [if_neg hfate] at e2
          rcases hrec2 : success_probability a fate (t2 - (fate_roll a : ℤ)) k with _ | w2
          · rw [hrec2] at e2
            simp at e2
          · rw [hrec2, Option.map_some', Option.some_inj] at e2
            subst e2
            by_cases hc1 : (fate_roll a : ℤ) > t1
            · rw [if_pos hc1, Option.some_inj] at e1
              subst e1
              have hw2_le_one : w2 ≤ 1 := sp_le_one hrec2
              have hw2_nonneg : 0 ≤ w2 := sp_nonneg hrec2
              have hfp_le : fate_probability a ≤
                  ((roll_sums a).countP fun (r : ℕ) => (r : ℤ) > t1) / (rolls_total a : ℚ) := by
                rw [fate_probability]
                rw [div_le_div_iff_of_pos_right htot]
                exact_mod_cast count_fate_le_countP hc1
              calc fate_probability a * w2 ≤ fate_probability a * 1 :=
                    mul_le_mul_of_nonneg_left hw2_le_one (fate_probability_nonneg a)
                _ = fate_probability a := mul_one _
                _ ≤ _ := hfp_le
            · rw [if_neg hc1, if_neg hfate] at e1
              rcases hrec1 : success_probability a fate (t1 - (fate_roll a : ℤ)) m with _ | w1
              · rw [hrec1] at e1
                simp at e1
              · rw [hrec1, Option.map_some', Option.some_inj] at e1
                subst e1
                have hw := ih (t1 - (fate_roll a : ℤ)) (t2 - (fate_roll a : ℤ)) m w1 w2
                  (by omega) (by omega) hrec1 hrec2
                exact mul_le_mul_of_nonneg_left hw (fate_probability_nonneg a)

/-- Witness for C8 at the composition `(3,)`, targets `t1 = 0 ≤ t2 = 1`,
with Fate: the probabilities are 1 and 2/3. -/
theorem C8_monotone_witness : (2 / 3 : ℚ) ≤ 1 :=
  C8_monotone [3] (by decide) (by decide) true 1 0 1 1 1 (2 / 3) (by decide) (by decide)
    (by
      have h1 : roll_sums [3] = [1, 2, 3] := by decide
      have h2 : fate_roll [3] = 3 := by decide
      have h3 : rolls_total [3] = 3 := by decide
      simp [success_probability, h1, h2, h3, List.countP, List.countP.go])
    (by
      have h1 : roll_sums [3] = [1, 2, 3] := by decide
      have h2 : fate_roll [3] = 3 := by decide
      have h3 : rolls_total [3] = 3 := by decide
      simp [success_probability, h1, h2, h3, List.countP, List.countP.go])

/-! ## Lemmas about the stats table -/

/-- The first record of each distinct name, in encounter order: the records
whose statistics `stats_table` actually computes. -/
def firstOccurrences : List RollRecord → List (List Char) → List RollRecord
  | [], _ => []
  | r :: rest, seen =>
      if r.name ∈ seen then firstOccurrences rest seen
      else r :: firstOccurrences rest (r.name :: seen)

lemma firstOccurrences_congr : ∀ (recs : List RollRecord) (seen1 seen2 : List (List Char)),
    (∀ x, x ∈ seen1 ↔ x ∈ seen2) →
      firstOccurrences recs seen1 = firstOccurrences recs seen2 := by
  intro recs
  induction recs with
  | nil => intro _ _ _; rfl
  | cons r rest ih =>
      intro seen1 seen2 hiff
      rw [firstOccurrences, firstOccurrences]
      by_cases hmem : r.name ∈ seen1
      · rw [if_pos hmem, if_pos ((hiff r.name).mp hmem)]
        exact ih seen1 seen2 hiff
      · rw [if_neg hmem, if_neg (fun h => hmem ((hiff r.name).mpr h))]
        rw [ih (r.name :: seen1) (r.name :: seen2) (by
          intro x
          rw [List.mem_cons, List.mem_cons, hiff x])]

lemma firstOccurrences_nodup : ∀ (recs : List RollRecord) (seen : List (List Char)),
    ((firstOccurrences recs seen).map (fun r => r.name)).Nodup ∧
      ∀ r ∈ firstOccurrences recs seen, r.name ∉ seen := by
  intro recs
  induction recs with
  | nil => intro seen; exact ⟨List.nodup_nil, by simp [firstOccurrences]⟩
  | cons r rest ih =>
      intro seen
      rw [firstOccurrences]
      by_cases hmem : r.name ∈ seen
      · rw [if_pos hmem]
        exact ih seen
      · rw [if_neg hmem]
        obtain ⟨ihnd, ihseen⟩ := ih (r.name :: seen)
        refine ⟨?_, ?_⟩
        · rw [List.map_cons]
          refine List.nodup_cons.mpr ⟨?_, ihnd⟩
          intro hin
          obtain ⟨q, hq, hqeq⟩ := List.mem_map.mp hin
          exact ihseen q hq (hqeq ▸ List.mem_cons_self _ _)
        · intro q hq
          rcases List.mem_cons.mp hq with rfl | hq'
          · exact hmem
          · exact fun hs => ihseen q hq' (List.mem_cons_of_mem _ hs)

lemma firstOccurrences_subset : ∀ (recs : List RollRecord) (seen : List (List Char)),
    ∀ r ∈ firstOccurrences recs seen, r ∈ recs := by
  intro recs
  induction recs with
  | nil => intro seen r hr; simpa [firstOccurrences] using hr
  | cons q rest ih =>
      intro seen r hr
      rw [firstOccurrences] at hr
      by_cases hmem : q.name ∈ seen
      · rw [if_pos hmem] at hr
        exact List.mem_cons_of_mem q (ih seen r hr)
      · rw [if_neg hmem] at hr
        rcases List.mem_cons.mp hr with rfl | hr'
        · exact List.mem_cons_self r rest
        · exact List.mem_cons_of_mem q (ih _ r hr')

lemma stats_table_foldl (recs : List RollRecord) :
    ∀ table : List (List Char × StatsRecord),
      recs.foldl
        (fun table roll =>
          if table.any fun e => e.1 = roll.name then table
          else table ++ [(roll.name, roll_spec_stats roll.array)])
        table =
      table ++ (firstOccurrences recs (table.map Prod.fst)).map
        (fun r => (r.name, roll_spec_stats r.array)) := by
  induction recs with
  | nil => intro table; simp [firstOccurrences]
  | cons r rest ih =>
      intro table
      rw [List.foldl_cons, firstOccurrences]
      by_cases hmem : r.name ∈ table.map Prod.fst
      · have hany : (table.any fun e => e.1 = r.name) = true := by
          rw [List.any_eq_true]
          obtain ⟨e, he, heq⟩ := List.mem_map.mp hmem
          exact ⟨e, he, by simp [heq]⟩
        rw [if_pos hmem, if_pos hany]
        exact ih table
      · have hany : (table.any fun e => e.1 = r.name) = false := by
          rw [List.any_eq_false]
          intro e he
          simp only [decide_eq_true_eq]
          intro heq
          exact hmem (List.mem_map.mpr ⟨e, he, heq⟩)
        rw [if_neg hmem, if_neg (by simp [hany])]
        rw [ih (table ++ [(r.name, roll_spec_stats r.array)])]
        rw [firstOccurrences_congr rest
          ((table ++ [(r.name, roll_spec_stats r.array)]).map Prod.fst)
          (r.name :: table.map Prod.fst) (by intro x; simp [or_comm])]
        simp

/-! ## Claim theorems: stats table -/

/-- C9. Stats-table dedup and determinism: `stats_table` records each distinct
composition name exactly once — its entries are exactly the first occurrence of
each name across all budgets, in encounter order, so the key list has no
duplicates and a name shared between two budgets maps to the single record of
its first occurrence — and two invocations on the same rolls table produce
identical tables. -/
theorem C9_stats_table_dedup (rolls : List (List RollRecord)) :
    stats_table rolls = (firstOccurrences rolls.flatten []).map
        (fun r => (r.name, roll_spec_stats r.array)) ∧
      ((stats_table rolls).map Prod.fst).Nodup ∧
      (∀ e ∈ stats_table rolls, ∃ r, r ∈ rolls.flatten ∧ e = (r.name, roll_spec_stats r.array)) ∧
      stats_table rolls = stats_table rolls := by
  have hfold : stats_table rolls = (firstOccurrences rolls.flatten []).map
      (fun r => (r.name, roll_spec_stats r.array)) := by
    rw [stats_table, ← List.foldl_flatten]
    have := stats_table_foldl rolls.flatten []
    simpa using this
  refine ⟨hfold, ?_, ?_, rfl⟩
  · rw [hfold]
    have hnd := (firstOccurrences_nodup rolls.flatten []).1
    rw [List.map_map]
    exact hnd
  · intro e he
    rw [hfold] at he
    obtain ⟨r, hr, rfl⟩ := List.mem_map.mp he
    exact ⟨r, firstOccurrences_subset rolls.flatten [] r hr, rfl⟩
